import Mathlib

/-!
Verification of the incremental Markdown repair engine of `gh-ask-docs`
(`askdocs/fixmarkdown.go`).  Strings are modelled as `List Char`; each Go
function is translated into a structurally recursive Lean function so that
all definitions are executable and concrete runs can be settled by `decide`.
-/

namespace AskDocs

/-- Strings are modelled as lists of characters (Go indexes bytes, but all
inputs occurring in the spec and tests are ASCII, where the two views
coincide). -/
abbrev Str := List Char

/-! ### `fixCodeBlocks`: `strings.Count(s, "```")` and the fence closer.

`strings.Count` counts non-overlapping occurrences scanning left to right;
for the fixed pattern `"```"` this is the greedy count below. -/

/-- Greedy non-overlapping count of the triple-backtick fence marker,
mirroring `strings.Count(s, "```")`. -/
def countFence : Str → Nat
  | '`' :: '`' :: '`' :: rest => countFence rest + 1
  | _ :: rest => countFence rest
  | [] => 0

/-- Number of occurrences of a single character, mirroring
`strings.Count(s, c)` for a one-character pattern. -/
def countChar (c : Char) : Str → Nat
  | [] => 0
  | d :: rest => (if d = c then 1 else 0) + countChar c rest

/-- Go `fixCodeBlocks`: if the fence count is odd, append `"\n```"`. -/
def fixCodeBlocks (s : Str) : Str :=
  if countFence s % 2 ≠ 0 then s ++ ['\n', '`', '`', '`'] else s

/-- Go `fixInlineCode`: if the count of backticks is odd, append one. -/
def fixInlineCode (s : Str) : Str :=
  if countChar '`' s % 2 ≠ 0 then s ++ ['`'] else s

/-! ### Link and image closers.

The four Go regular expressions are translated positionally: a regex of the
form `X…$` matches iff some suffix of the string matches `X…` literally,
which the recursive functions below test at every start position. -/

/-- Regex `\[[^\]]*$`: some `[` with no `]` anywhere after it. -/
def matchLinkText : Str → Bool
  | [] => false
  | c :: cs => (c = '[' && !(cs.contains ']')) || matchLinkText cs

/-- Regex `\]\([^)]*$`: a `](` with no `)` from there to the end. -/
def matchLinkURL : Str → Bool
  | ']' :: '(' :: cs => !(cs.contains ')') || matchLinkURL ('(' :: cs)
  | _ :: cs => matchLinkURL cs
  | [] => false

/-- Regex `!\[[^\]]*$`: some `![` with no `]` anywhere after it. -/
def matchImgAlt : Str → Bool
  | '!' :: '[' :: cs => !(cs.contains ']') || matchImgAlt ('[' :: cs)
  | _ :: cs => matchImgAlt cs
  | [] => false

/-- Tail of regex `!\[[^\]]*\([^)]*$` after the `![`: a run of non-`]`
characters, then `(`, then non-`)` characters up to the end. -/
def imgURLTail : Str → Bool
  | [] => false
  | c :: cs => (c = '(' && !(cs.contains ')')) || (c ≠ ']' && imgURLTail cs)

/-- Regex `!\[[^\]]*\([^)]*$` (`imgURLRe`). -/
def matchImgURL : Str → Bool
  | '!' :: '[' :: cs => imgURLTail cs || matchImgURL ('[' :: cs)
  | _ :: cs => matchImgURL cs
  | [] => false

/-- Suffix of `s` starting at the last occurrence of `sub` (`[]` if `sub`
does not occur), mirroring `s[strings.LastIndex(s, sub):]`. -/
def suffixFromLast (sub : Str) : Str → Str
  | [] => []
  | c :: cs =>
    let r := suffixFromLast sub cs
    if r.isEmpty then (if sub.isPrefixOf (c :: cs) then c :: cs else []) else r

/-- Whitespace as used by Go `strings.TrimSpace` (`unicode.IsSpace`),
restricted to ASCII. -/
def isGoSpace (c : Char) : Bool :=
  c = ' ' || c = '\t' || c = '\n' || c = '\x0b' || c = '\x0c' || c = '\r'

/-- Go `strings.TrimSpace`. -/
def trimSpace (s : Str) : Str :=
  ((s.dropWhile isGoSpace).reverse.dropWhile isGoSpace).reverse

/-- Go `strings.HasSuffix(strings.TrimSpace(s), ")")`. -/
def endsParenTrimmed (s : Str) : Bool :=
  (trimSpace s).getLast? = some ')'

/-- Guard of the first branch of `fixLinks` (unclosed link text). -/
def linkTextNeeds (s : Str) : Bool :=
  matchLinkText s && !((suffixFromLast ['['] s).contains ']')

/-- Guard of the second branch of `fixLinks` (unclosed link URL). -/
def linkURLNeeds (s : Str) : Bool :=
  matchLinkURL s && !(endsParenTrimmed s)

/-- Go `fixLinks`. -/
def fixLinks (s : Str) : Str :=
  let s1 := if linkTextNeeds s then s ++ [']'] else s
  if linkURLNeeds s1 then s1 ++ [')'] else s1

/-- Guard of the first branch of `fixImages` (unclosed alt text). -/
def imgAltNeeds (s : Str) : Bool :=
  matchImgAlt s && !((suffixFromLast ['!', '['] s).contains ']')

/-- Guard of the second branch of `fixImages` (unclosed image URL). -/
def imgURLNeeds (s : Str) : Bool :=
  matchImgURL s && !(endsParenTrimmed s)

/-- First stage of `fixImages`: close an unclosed `![` alt text. -/
def imgAltStage (s : Str) : Str :=
  if imgAltNeeds s then s ++ [']'] else s

/-- Go `fixImages` (the second `if` examines the possibly-extended string). -/
def fixImages (s : Str) : Str :=
  let s1 := imgAltStage s
  if imgURLNeeds s1 then s1 ++ [')'] else s1

/-! ### `fixEmphasis`.

Go scans with `strings.HasPrefix(s[i:], tok)` over the ordered token list
`"***", "**", "__", "*", "_", "~~", "~"` (longest match first within each
character family).  The pattern match below tries the alternatives in the
same order, so it selects exactly the token Go selects. -/

/-- The emphasis/strikethrough marker tokens, in Go's trial order. -/
def emphTokens : List Str :=
  [['*', '*', '*'], ['*', '*'], ['_', '_'], ['*'], ['_'], ['~', '~'], ['~']]

/-- One token against the stack: pop the matching top (a closing tag) or
push (an opening tag).  The stack's head is Go's top (`stack[len-1]`). -/
def pushPop (st : List Str) (t : Str) : List Str :=
  match st with
  | x :: xs => if x = t then xs else t :: x :: xs
  | [] => [t]

/-- The emphasis scan of Go `fixEmphasis`, carried out over the stack.
Each arm consumes exactly the token selected longest-match-first
(`i += len(tok)`), or one character when nothing matches. -/
def emphScanAux (st : List Str) : Str → List Str
  | '*' :: '*' :: '*' :: rest => emphScanAux (pushPop st ['*', '*', '*']) rest
  | '*' :: '*' :: rest => emphScanAux (pushPop st ['*', '*']) rest
  | '_' :: '_' :: rest => emphScanAux (pushPop st ['_', '_']) rest
  | '*' :: rest => emphScanAux (pushPop st ['*']) rest
  | '_' :: rest => emphScanAux (pushPop st ['_']) rest
  | '~' :: '~' :: rest => emphScanAux (pushPop st ['~', '~']) rest
  | '~' :: rest => emphScanAux (pushPop st ['~']) rest
  | _ :: rest => emphScanAux st rest
  | [] => st

/-- The stack of unclosed markers left by scanning `s` (head = top). -/
def emphScan (s : Str) : List Str := emphScanAux [] s

/-- Go's closing loop: repeatedly pop the top marker and append its text. -/
def appendClosers (s : Str) : List Str → Str
  | [] => s
  | t :: rest => appendClosers (s ++ t) rest

/-- Go `fixEmphasis`. -/
def fixEmphasis (s : Str) : Str :=
  appendClosers s (emphScan s)

/-! ### `fixTables`. -/

/-- Whitespace of the Go regexp class `\s` = `[\t\n\f\r ]`. -/
def isReSpace (c : Char) : Bool :=
  c = ' ' || c = '\t' || c = '\n' || c = '\x0c' || c = '\r'

/-- Regex `^\s*\|.*$` (`tableLineRe`): after skipping leading whitespace
the next character is a pipe (`.*$` always matches within a line). -/
def tableLine (l : Str) : Bool :=
  (l.dropWhile isReSpace).head? == some '|'

/-- Regex `^\s*\|[-:|\s]*$` (`tableSepRe`). -/
def tableSep (l : Str) : Bool :=
  match l.dropWhile isReSpace with
  | '|' :: rest => rest.all (fun c => c = '-' || c = ':' || c = '|' || isReSpace c)
  | _ => false

/-- Go `strings.TrimRight(line, " ")` (the cut set is the space only). -/
def trimRightSp (l : Str) : Str :=
  (l.reverse.dropWhile (· = ' ')).reverse

/-- Go `strings.Repeat(" |", d)`. -/
def padCells (d : Nat) : Str :=
  (List.replicate d [' ', '|']).flatten

/-- Split at newlines, mirroring `strings.Split(s, "\n")` (never empty). -/
def splitNL : Str → List Str
  | [] => [[]]
  | c :: cs =>
    if c = '\n' then [] :: splitNL cs
    else
      match splitNL cs with
      | l :: ls => (c :: l) :: ls
      | [] => [[c]]

/-- Join with newlines, mirroring `strings.Join(lines, "\n")`. -/
def joinNL : List Str → Str
  | [] => []
  | [l] => l
  | l :: ls => l ++ '\n' :: joinNL ls

/-- The indexed loop of Go `fixTables`, iterating `i` over the (mutable)
array of lines.  The first argument counts the remaining iterations, so the
recursion is structural; `fixTables` passes `lines.length`, making the
function traverse exactly the indices `0 ≤ i < lines.length` as Go does. -/
def tablesLoop : Nat → Nat → List Str → Bool → Nat → List Str
  | 0, _, lines, _, _ => lines
  | n + 1, i, lines, inTable, headerPipes =>
    let line := lines.getD i []
    if tableLine line then
      if !inTable then
        -- potential header line: look ahead for a separator
        if i + 1 < lines.length && tableSep (lines.getD (i + 1) []) then
          tablesLoop n (i + 1) lines true (countChar '|' line)
        else
          tablesLoop n (i + 1) lines inTable headerPipes
      else
        -- table body: pad missing columns
        if countChar '|' line < headerPipes then
          tablesLoop n (i + 1)
            (lines.set i (trimRightSp line ++ padCells (headerPipes - countChar '|' line)))
            inTable headerPipes
        else
          tablesLoop n (i + 1) lines inTable headerPipes
    else
      tablesLoop n (i + 1) lines false 0

/-- Go `fixTables`. -/
def fixTables (s : Str) : Str :=
  joinNL (tablesLoop (splitNL s).length 0 (splitNL s) false 0)

/-- Go `fixIncompleteMarkdown`: the six sub-repairs in their fixed order. -/
def fixIncompleteMarkdown (s : Str) : Str :=
  fixTables (fixEmphasis (fixImages (fixLinks (fixInlineCode (fixCodeBlocks s)))))

/-- Substring test, mirroring `strings.Contains(s, sub)`. -/
def containsStr (sub : Str) : Str → Bool
  | [] => sub.isEmpty
  | c :: cs => sub.isPrefixOf (c :: cs) || containsStr sub cs

/-! ### Balance invariants (spec §8, "No-op on well-formed input"). -/

/-- The table part of the balance invariant: replaying the `fixTables`
state machine, every table body row already has at least the header's pipe
count (so no padding would be inserted). -/
def okTables : List Str → Bool → Nat → Bool
  | [], _, _ => true
  | line :: rest, inTable, headerPipes =>
    if tableLine line then
      if !inTable then
        match rest with
        | next :: _ =>
          if tableSep next then okTables rest true (countChar '|' line)
          else okTables rest inTable headerPipes
        | [] => okTables rest inTable headerPipes
      else
        headerPipes ≤ countChar '|' line && okTables rest inTable headerPipes
    else okTables rest false 0

/-- The balance invariants of the spec, exactly as the engine detects them:
even fence count, even backtick count, none of the four link/image guards
firing, an empty emphasis stack, and all table body rows at full width. -/
def balanced (s : Str) : Bool :=
  countFence s % 2 = 0 && countChar '`' s % 2 = 0 &&
  !linkTextNeeds s && !linkURLNeeds s && !imgAltNeeds s && !imgURLNeeds s &&
  emphScan s = ([] : List Str) &&
  okTables (splitNL s) false 0

/-- Line-by-line specification of the table padder, written from the
spec's §4.6 description of `fixTables` (with the separator line handled as
the body row it becomes on the following iteration): a candidate line
followed by a separator is recognized as a header and left unmodified; in
a table, a candidate line short of pipes is trimmed of trailing spaces and
padded with `" |"`; a non-candidate line resets the state. -/
def tablesSpec : List Str → Bool → Nat → List Str
  | [], _, _ => []
  | line :: rest, inTable, headerPipes =>
    if tableLine line then
      if !inTable then
        match rest with
        | next :: _ =>
          if tableSep next then line :: tablesSpec rest true (countChar '|' line)
          else line :: tablesSpec rest inTable headerPipes
        | [] => line :: tablesSpec rest inTable headerPipes
      else
        (if countChar '|' line < headerPipes then
          trimRightSp line ++ padCells (headerPipes - countChar '|' line)
         else line) :: tablesSpec rest inTable headerPipes
    else line :: tablesSpec rest false 0

/-- The characters emphasis tokens are made of. -/
def tokChar (c : Char) : Bool :=
  c = '*' || c = '_' || c = '~'

/-- Append `w` to the last element of a list of lines (used to describe
`splitNL` of an extended buffer). -/
def appendLast : List Str → Str → List Str
  | [], w => [w]
  | [l], w => [l ++ w]
  | l :: ls, w => l :: appendLast ls w

/-! ## Helper lemmas -/

theorem countChar_append (c : Char) (a b : Str) :
    countChar c (a ++ b) = countChar c a + countChar c b := by
  induction a with
  | nil => simp [countChar]
  | cons d rest ih => simp [countChar, ih]; omega

theorem countChar_eq_zero {c : Char} {w : Str} (hw : ∀ d ∈ w, ¬ d = c) : countChar c w = 0 := by
  induction w with
  | nil => rfl
  | cons d rest ih =>
    have hd : ¬ d = c := hw d (List.mem_cons_self d rest)
    simp [countChar, hd]
    exact ih fun e he => hw e (List.mem_cons_of_mem _ he)

/-- Every string is its space-trimmed form followed by trailing spaces. -/
theorem trimRightSp_decomp (l : Str) :
    ∃ w, l = trimRightSp l ++ w ∧ ∀ d ∈ w, d = ' ' := by
  refine ⟨(l.reverse.takeWhile (· = ' ')).reverse, ?_, ?_⟩
  · have h := List.takeWhile_append_dropWhile (p := (· = ' ')) (l := l.reverse)
    calc l = l.reverse.reverse := (List.reverse_reverse l).symm
    _ = (l.reverse.takeWhile (· = ' ') ++ l.reverse.dropWhile (· = ' ')).reverse := by rw [h]
    _ = trimRightSp l ++ (l.reverse.takeWhile (· = ' ')).reverse := by
        rw [List.reverse_append]; rfl
  · intro d hd
    have := List.mem_takeWhile_imp (List.mem_reverse.mp hd)
    simpa using this

theorem countChar_trimRightSp {c : Char} (hc : ¬ c = ' ') (l : Str) :
    countChar c (trimRightSp l) = countChar c l := by
  obtain ⟨w, hw, hmem⟩ := trimRightSp_decomp l
  have : countChar c w = 0 := countChar_eq_zero fun d hd => by
    rw [hmem d hd]; exact fun h => hc h.symm
  conv_rhs => rw [hw]
  rw [countChar_append, this, Nat.add_zero]

theorem appendClosers_eq (st : List Str) : ∀ s : Str, appendClosers s st = s ++ st.flatten := by
  induction st with
  | nil => intro s; simp [appendClosers]
  | cons t rest ih => intro s; rw [appendClosers, ih]; simp

/-- Greedy fence counting splits at any boundary that is not a backtick:
no occurrence of the marker can span the boundary. -/
theorem countFence_append {b : Str} (hb : ∀ ds : Str, b ≠ '`' :: ds) :
    ∀ a : Str, countFence (a ++ b) = countFence a + countFence b := by
  intro a
  induction a using countFence.induct with
  | case1 rest ih =>
    simp only [List.cons_append]
    simp [countFence, ih]
    omega
  | case2 head rest hno ih =>
    have h2 : ∀ r : Str, head = '`' → rest ++ b = '`' :: '`' :: r → False := by
      intro r hh he
      rcases rest with _ | ⟨x, rest2⟩
      · exact hb ('`' :: r) (by simpa using he)
      · rcases rest2 with _ | ⟨y, rest3⟩
        · obtain ⟨hx, hb'⟩ : x = '`' ∧ b = '`' :: r := by simpa using he
          exact hb r hb'
        · obtain ⟨hx, hy, -⟩ : x = '`' ∧ y = '`' ∧ rest3 ++ b = r := by simpa using he
          exact hno rest3 hh (by rw [hx, hy])
    simp only [List.cons_append]
    rw [countFence.eq_2 head (rest ++ b) h2, countFence.eq_2 head rest hno, ih]
  | case3 => simp [countFence]

theorem countFence_eq_zero {w : Str} (hw : ∀ d ∈ w, ¬ d = '`') : countFence w = 0 := by
  induction w with
  | nil => rfl
  | cons c rest ih =>
    rw [countFence.eq_2 c rest (fun r h1 _ => hw c (List.mem_cons_self c rest) h1)]
    exact ih fun d hd => hw d (List.mem_cons_of_mem _ hd)

/-- Appending backtick-free text does not change the fence count. -/
theorem countFence_append_other {w : Str} (hw : ∀ d ∈ w, ¬ d = '`') (a : Str) :
    countFence (a ++ w) = countFence a := by
  rcases w with _ | ⟨c, cs⟩
  · simp
  · have hb : ∀ ds : Str, (c :: cs) ≠ '`' :: ds := by
      intro ds h
      obtain ⟨hc, -⟩ : c = '`' ∧ cs = ds := by simpa using h
      exact hw c (List.mem_cons_self c cs) hc
    rw [countFence_append hb a, countFence_eq_zero hw, Nat.add_zero]

/-! ### Emphasis scan lemmas -/

theorem pushPop_mem {st : List Str} {t x : Str} (h : x ∈ pushPop st t) : x = t ∨ x ∈ st := by
  rcases st with _ | ⟨y, ys⟩
  · simp only [pushPop] at h
    exact .inl (by simpa using h)
  · by_cases hy : y = t
    · simp only [pushPop, if_pos hy] at h
      exact .inr (List.mem_cons_of_mem _ h)
    · simp only [pushPop, if_neg hy] at h
      simp at h
      rcases h with h | h | h
      · exact .inl h
      · exact .inr (by simp [h])
      · exact .inr (List.mem_cons_of_mem _ h)

/-- Every marker on the final stack is an emphasis token or came from the
initial stack. -/
theorem emphScanAux_mem {t : Str} :
    ∀ (st : List Str) (s : Str), t ∈ emphScanAux st s → t ∈ emphTokens ∨ t ∈ st := by
  intro st s
  induction st, s using emphScanAux.induct with
  | case1 st rest ih =>
    intro ht
    rcases ih ht with h | h
    · exact .inl h
    · rcases pushPop_mem h with h | h
      · exact .inl (by rw [h]; decide)
      · exact .inr h
  | case2 st rest hc ih =>
    intro ht
    rw [emphScanAux.eq_2 st rest hc] at ht
    rcases ih ht with h | h
    · exact .inl h
    · rcases pushPop_mem h with h | h
      · exact .inl (by rw [h]; decide)
      · exact .inr h
  | case3 st rest ih =>
    intro ht
    rcases ih ht with h | h
    · exact .inl h
    · rcases pushPop_mem h with h | h
      · exact .inl (by rw [h]; decide)
      · exact .inr h
  | case4 st rest hc1 hc2 ih =>
    intro ht
    rw [emphScanAux.eq_4 st rest hc1 hc2] at ht
    rcases ih ht with h | h
    · exact .inl h
    · rcases pushPop_mem h with h | h
      · exact .inl (by rw [h]; decide)
      · exact .inr h
  | case5 st rest hc ih =>
    intro ht
    rw [emphScanAux.eq_5 st rest hc] at ht
    rcases ih ht with h | h
    · exact .inl h
    · rcases pushPop_mem h with h | h
      · exact .inl (by rw [h]; decide)
      · exact .inr h
  | case6 st rest ih =>
    intro ht
    rcases ih ht with h | h
    · exact .inl h
    · rcases pushPop_mem h with h | h
      · exact .inl (by rw [h]; decide)
      · exact .inr h
  | case7 st rest hc ih =>
    intro ht
    rw [emphScanAux.eq_7 st rest hc] at ht
    rcases ih ht with h | h
    · exact .inl h
    · rcases pushPop_mem h with h | h
      · exact .inl (by rw [h]; decide)
      · exact .inr h
  | case8 st head rest h1 h2 h3 h4 h5 h6 h7 ih =>
    intro ht
    rw [emphScanAux.eq_8 st head rest h1 h2 h3 h4 h5 h6 h7] at ht
    exact ih ht
  | case9 st => exact fun ht => .inr ht

/-- When `b` does not start with a token character, no token can span the
append boundary, and the scan of `a ++ b` factors through the scan of `a`. -/
theorem emphScanAux_append {b : Str} (hb : ∀ c cs, b = c :: cs → tokChar c = false) :
    ∀ (st : List Str) (a : Str),
      emphScanAux st (a ++ b) = emphScanAux (emphScanAux st a) b := by
  have hbc : ∀ c, tokChar c = true → ∀ cs, b = c :: cs → False := by
    intro c hc cs he
    rw [hb c cs he] at hc
    exact Bool.false_ne_true hc
  intro st a
  induction st, a using emphScanAux.induct with
  | case1 st rest ih => simpa using ih
  | case2 st rest hc ih =>
    have hc' : ∀ r : Str, rest ++ b = '*' :: r → False := by
      intro r he
      rcases rest with _ | ⟨x, rs⟩
      · exact hbc '*' (by decide) r (by simpa using he)
      · obtain ⟨hx, -⟩ : x = '*' ∧ rs ++ b = r := by simpa using he
        exact hc rs (by rw [hx])
    simp only [List.cons_append]
    rw [emphScanAux.eq_2 st (rest ++ b) hc', emphScanAux.eq_2 st rest hc]
    exact ih
  | case3 st rest ih => simpa using ih
  | case4 st rest hc1 hc2 ih =>
    have hc2' : ∀ r : Str, rest ++ b = '*' :: r → False := by
      intro r he
      rcases rest with _ | ⟨x, rs⟩
      · exact hbc '*' (by decide) r (by simpa using he)
      · obtain ⟨hx, -⟩ : x = '*' ∧ rs ++ b = r := by simpa using he
        exact hc2 rs (by rw [hx])
    have hc1' : ∀ r : Str, rest ++ b = '*' :: '*' :: r → False := by
      intro r he
      rcases rest with _ | ⟨x, rs⟩
      · exact hbc '*' (by decide) ('*' :: r) (by simpa using he)
      · rcases rs with _ | ⟨y, rs2⟩
        · obtain ⟨hx, hb'⟩ : x = '*' ∧ b = '*' :: r := by simpa using he
          exact hbc '*' (by decide) r hb'
        · obtain ⟨hx, hy, -⟩ : x = '*' ∧ y = '*' ∧ rs2 ++ b = r := by simpa using he
          exact hc1 rs2 (by rw [hx, hy])
    simp only [List.cons_append]
    rw [emphScanAux.eq_4 st (rest ++ b) hc1' hc2', emphScanAux.eq_4 st rest hc1 hc2]
    exact ih
  | case5 st rest hc ih =>
    have hc' : ∀ r : Str, rest ++ b = '_' :: r → False := by
      intro r he
      rcases rest with _ | ⟨x, rs⟩
      · exact hbc '_' (by decide) r (by simpa using he)
      · obtain ⟨hx, -⟩ : x = '_' ∧ rs ++ b = r := by simpa using he
        exact hc rs (by rw [hx])
    simp only [List.cons_append]
    rw [emphScanAux.eq_5 st (rest ++ b) hc', emphScanAux.eq_5 st rest hc]
    exact ih
  | case6 st rest ih => simpa using ih
  | case7 st rest hc ih =>
    have hc' : ∀ r : Str, rest ++ b = '~' :: r → False := by
      intro r he
      rcases rest with _ | ⟨x, rs⟩
      · exact hbc '~' (by decide) r (by simpa using he)
      · obtain ⟨hx, -⟩ : x = '~' ∧ rs ++ b = r := by simpa using he
        exact hc rs (by rw [hx])
    simp only [List.cons_append]
    rw [emphScanAux.eq_7 st (rest ++ b) hc', emphScanAux.eq_7 st rest hc]
    exact ih
  | case8 st head rest h1 h2 h3 h4 h5 h6 h7 ih =>
    simp only [List.cons_append]
    rw [emphScanAux.eq_8 st head (rest ++ b) (fun r hh _ => h4 hh) (fun r hh _ => h4 hh)
        (fun r hh _ => h5 hh) h4 h5 (fun r hh _ => h7 hh) h7,
      emphScanAux.eq_8 st head rest h1 h2 h3 h4 h5 h6 h7]
    exact ih
  | case9 st => rfl

/-- Scanning token-free text leaves the stack unchanged. -/
theorem emphScanAux_no_tok {w : Str} (hw : ∀ d ∈ w, tokChar d = false) (st : List Str) :
    emphScanAux st w = st := by
  induction w with
  | nil => rfl
  | cons c cs ih =>
    have hc : tokChar c = false := hw c (List.mem_cons_self c cs)
    have h4 : c = '*' → False := fun h => by rw [h] at hc; exact absurd hc (by decide)
    have h5 : c = '_' → False := fun h => by rw [h] at hc; exact absurd hc (by decide)
    have h7 : c = '~' → False := fun h => by rw [h] at hc; exact absurd hc (by decide)
    rw [emphScanAux.eq_8 st c cs (fun r hh _ => h4 hh) (fun r hh _ => h4 hh)
        (fun r hh _ => h5 hh) h4 h5 (fun r hh _ => h7 hh) h7]
    exact ih fun d hd => hw d (List.mem_cons_of_mem _ hd)

/-- Appending token-free text does not change the resulting stack. -/
theorem emphScanAux_append_no_tok {w : Str} (hw : ∀ d ∈ w, tokChar d = false)
    (st : List Str) (a : Str) : emphScanAux st (a ++ w) = emphScanAux st a := by
  rw [emphScanAux_append (fun c cs he => hw c (by rw [he]; exact List.mem_cons_self c cs)) st a,
    emphScanAux_no_tok hw]

/-! ### Splitting and joining lines -/

theorem splitNL_ne_nil (s : Str) : splitNL s ≠ [] := by
  cases s with
  | nil => simp [splitNL]
  | cons c cs =>
    simp only [splitNL]
    split
    · simp
    · split <;> simp

theorem splitNL_cons_ex (s : Str) : ∃ l ls, splitNL s = l :: ls := by
  rcases h : splitNL s with _ | ⟨l, ls⟩
  · exact absurd h (splitNL_ne_nil s)
  · exact ⟨l, ls, rfl⟩

theorem splitNL_nl_cons (cs : Str) : splitNL ('\n' :: cs) = [] :: splitNL cs := by
  simp [splitNL]

theorem splitNL_cons_other {c : Char} (hc : ¬ c = '\n') {cs l : Str} {ls : List Str}
    (h : splitNL cs = l :: ls) : splitNL (c :: cs) = (c :: l) :: ls := by
  simp [splitNL, hc, h]

theorem joinNL_cons {ls : List Str} (h : ls ≠ []) (l : Str) :
    joinNL (l :: ls) = l ++ '\n' :: joinNL ls := by
  rcases ls with _ | ⟨m, ms⟩
  · exact absurd rfl h
  · rfl

theorem joinNL_splitNL (s : Str) : joinNL (splitNL s) = s := by
  induction s with
  | nil => rfl
  | cons c cs ih =>
    by_cases hc : c = '\n'
    · subst hc
      rw [splitNL_nl_cons, joinNL_cons (splitNL_ne_nil cs)]
      simp [ih]
    · obtain ⟨l, ls, hls⟩ := splitNL_cons_ex cs
      rw [splitNL_cons_other hc hls]
      rcases ls with _ | ⟨m, ms⟩
      · have hl : l = cs := by rw [hls] at ih; exact ih
        simp [joinNL, hl]
      · rw [joinNL_cons (by simp)]
        rw [hls, joinNL_cons (by simp)] at ih
        rw [List.cons_append, ih]

theorem splitNL_append_nl (b : Str) :
    ∀ a : Str, splitNL (a ++ '\n' :: b) = splitNL a ++ splitNL b := by
  intro a
  induction a with
  | nil => simp [splitNL_nl_cons, splitNL]
  | cons c cs ih =>
    by_cases hc : c = '\n'
    · subst hc
      simp only [List.cons_append]
      rw [splitNL_nl_cons, splitNL_nl_cons, ih]
      rfl
    · obtain ⟨l, ls, hls⟩ := splitNL_cons_ex cs
      have h2 : splitNL (cs ++ '\n' :: b) = l :: (ls ++ splitNL b) := by
        rw [ih, hls]; rfl
      simp only [List.cons_append]
      rw [splitNL_cons_other hc h2, splitNL_cons_other hc hls]
      rfl

theorem splitNL_no_nl {w : Str} (hw : '\n' ∉ w) : splitNL w = [w] := by
  induction w with
  | nil => rfl
  | cons c cs ih =>
    have hc : ¬ c = '\n' := fun h => hw (by rw [h]; exact List.mem_cons_self _ _)
    exact splitNL_cons_other hc (ih fun h => hw (List.mem_cons_of_mem _ h))

theorem appendLast_cons {ls : List Str} (h : ls ≠ []) (l : Str) (w : Str) :
    appendLast (l :: ls) w = l :: appendLast ls w := by
  rcases ls with _ | ⟨m, ms⟩
  · exact absurd rfl h
  · rfl

theorem splitNL_append_no_nl {w : Str} (hw : '\n' ∉ w) :
    ∀ a : Str, splitNL (a ++ w) = appendLast (splitNL a) w := by
  intro a
  induction a with
  | nil => simp [splitNL_no_nl hw, appendLast]
  | cons c cs ih =>
    by_cases hc : c = '\n'
    · subst hc
      simp only [List.cons_append]
      rw [splitNL_nl_cons, splitNL_nl_cons, ih,
        appendLast_cons (splitNL_ne_nil cs)]
    · obtain ⟨l, ls, hls⟩ := splitNL_cons_ex cs
      simp only [List.cons_append]
      rcases ls with _ | ⟨m, ms⟩
      · have h2 : splitNL (cs ++ w) = (l ++ w) :: [] := by rw [ih, hls]; rfl
        rw [splitNL_cons_other hc h2, splitNL_cons_other hc hls]
        rfl
      · have h2 : splitNL (cs ++ w) = l :: appendLast (m :: ms) w := by rw [ih, hls]; rfl
        rw [splitNL_cons_other hc h2, splitNL_cons_other hc hls]
        rfl

/-- Membership in `appendLast`: an element is an original line or the last
original line extended by `w`. -/
theorem mem_appendLast {x w : Str} :
    ∀ {ls : List Str}, ls ≠ [] → x ∈ appendLast ls w → x ∈ ls ∨ ∃ l, l ∈ ls ∧ x = l ++ w := by
  intro ls
  induction ls with
  | nil => intro h; exact absurd rfl h
  | cons l ms ih =>
    intro _ h
    rcases ms with _ | ⟨m, ms'⟩
    · simp [appendLast] at h
      exact .inr ⟨l, by simp, h⟩
    · rw [appendLast_cons (by simp)] at h
      rcases List.mem_cons.mp h with h | h
      · exact .inl (by simp [h])
      · rcases ih (by simp) h with h | ⟨l0, hl0, hx⟩
        · exact .inl (List.mem_cons_of_mem _ h)
        · exact .inr ⟨l0, List.mem_cons_of_mem _ hl0, hx⟩

/-- A non-candidate line stays non-candidate when extended by text that is
empty or starts with a character that is neither whitespace nor a pipe. -/
theorem tableLine_append_false {l : Str} (hl : tableLine l = false) {w : Str}
    (hw : w = [] ∨ ∃ c cs, w = c :: cs ∧ isReSpace c = false ∧ ¬ c = '|') :
    tableLine (l ++ w) = false := by
  rcases hw with rfl | ⟨c, cs, rfl, hsp, hpipe⟩
  · simpa using hl
  · unfold tableLine at *
    rw [List.dropWhile_append]
    by_cases he : (l.dropWhile isReSpace).isEmpty
    · rw [if_pos he, List.dropWhile_cons, if_neg (by simp [hsp])]
      simpa using hpipe
    · rw [if_neg he]
      rcases hd : l.dropWhile isReSpace with _ | ⟨d, ds⟩
      · rw [hd] at he; simp at he
      · rw [hd] at hl
        simpa using hl

theorem take_succ_append {α : Type} {l : List α} {i : Nat} (hi : i < l.length) (x : List α) :
    l.take (i + 1) ++ x = l.take i ++ l[i] :: x := by
  have h : l.take (i + 1) = l.take i ++ [l[i]] := by
    rw [List.take_succ, List.getElem?_eq_getElem hi]
    rfl
  rw [h, List.append_assoc]
  rfl

/-! ### The indexed table loop against its line-by-line description -/

theorem tablesLoop_eq :
    ∀ (n : Nat) (lines : List Str) (i : Nat) (b : Bool) (hp : Nat),
      i + n = lines.length →
      tablesLoop n i lines b hp = lines.take i ++ tablesSpec (lines.drop i) b hp := by
  intro n
  induction n with
  | zero =>
    intro lines i b hp h
    rw [List.take_of_length_le (by omega), List.drop_of_length_le (by omega)]
    simp [tablesLoop, tablesSpec]
  | succ n ih =>
    intro lines i b hp h
    have hi : i < lines.length := by omega
    have hdrop : lines.drop i = lines[i] :: lines.drop (i + 1) := List.drop_eq_getElem_cons hi
    have hgetD : lines.getD i [] = lines[i] := List.getD_eq_getElem lines [] hi
    have hg : lines[i]?.getD [] = lines[i] := by rw [List.getElem?_eq_getElem hi]; rfl
    rw [hdrop]
    by_cases htl : tableLine lines[i] = true
    · cases b with
      | false =>
        by_cases hnext : i + 1 < lines.length
        · have hdrop2 : lines.drop (i + 1) = lines[i + 1] :: lines.drop (i + 2) :=
            List.drop_eq_getElem_cons hnext
          have hg2 : lines[i + 1]?.getD [] = lines[i + 1] := by
            rw [List.getElem?_eq_getElem hnext]; rfl
          by_cases hsep : tableSep lines[i + 1] = true
          · rw [show tablesLoop (n + 1) i lines false hp
                  = tablesLoop n (i + 1) lines true (countChar '|' lines[i]) from by
                simp [tablesLoop, hg, hg2, htl, hnext, hsep]]
            rw [ih lines (i + 1) true _ (by omega)]
            rw [hdrop2]
            rw [show tablesSpec (lines[i] :: lines[i + 1] :: lines.drop (i + 2)) false hp
                  = lines[i] :: tablesSpec (lines[i + 1] :: lines.drop (i + 2)) true
                      (countChar '|' lines[i]) from by
              simp [tablesSpec, htl, hsep]]
            rw [← hdrop2, take_succ_append hi]
          · rw [show tablesLoop (n + 1) i lines false hp
                  = tablesLoop n (i + 1) lines false hp from by
                simp [tablesLoop, hg, hg2, htl, hnext, hsep]]
            rw [ih lines (i + 1) false hp (by omega)]
            rw [hdrop2]
            rw [show tablesSpec (lines[i] :: lines[i + 1] :: lines.drop (i + 2)) false hp
                  = lines[i] :: tablesSpec (lines[i + 1] :: lines.drop (i + 2)) false hp from by
              simp [tablesSpec, htl, hsep]]
            rw [← hdrop2, take_succ_append hi]
        · have hdrop2 : lines.drop (i + 1) = [] := List.drop_of_length_le (by omega)
          rw [show tablesLoop (n + 1) i lines false hp
                = tablesLoop n (i + 1) lines false hp from by
              simp [tablesLoop, hg, htl, hnext]]
          rw [ih lines (i + 1) false hp (by omega)]
          rw [hdrop2]
          rw [show tablesSpec (lines[i] :: ([] : List Str)) false hp
                = lines[i] :: tablesSpec [] false hp from by
            simp [tablesSpec, htl]]
          rw [take_succ_append hi]
      | true =>
        by_cases hcnt : countChar '|' lines[i] < hp
        · set nl := trimRightSp lines[i] ++ padCells (hp - countChar '|' lines[i]) with hnl
          have hset : lines.set i nl = lines.take i ++ nl :: lines.drop (i + 1) := by
            rw [List.set_eq_take_append_cons_drop, if_pos hi]
          have hlen' : (i + 1) + n = (lines.set i nl).length := by
            rw [List.length_set]; omega
          have htake : (lines.set i nl).take (i + 1) = lines.take i ++ [nl] := by
            rw [hset, List.take_append_eq_append_take, List.length_take,
              Nat.min_eq_left (Nat.le_of_lt hi),
              List.take_of_length_le (by rw [List.length_take]; omega)]
            have h1 : i + 1 - i = 1 := by omega
            rw [h1]
            rfl
          have hdropset : (lines.set i nl).drop (i + 1) = lines.drop (i + 1) := by
            rw [List.drop_set, if_pos (by omega)]
          rw [show tablesLoop (n + 1) i lines true hp
                = tablesLoop n (i + 1) (lines.set i nl) true hp from by
              simp [tablesLoop, hg, htl, hcnt, ← hnl]]
          rw [ih (lines.set i nl) (i + 1) true hp hlen']
          rw [htake, hdropset]
          rw [show tablesSpec (lines[i] :: lines.drop (i + 1)) true hp
                = nl :: tablesSpec (lines.drop (i + 1)) true hp from by
            simp [tablesSpec, htl, hcnt, hnl]]
          simp
        · rw [show tablesLoop (n + 1) i lines true hp
                = tablesLoop n (i + 1) lines true hp from by
              simp [tablesLoop, hg, htl, hcnt]]
          rw [ih lines (i + 1) true hp (by omega)]
          rw [show tablesSpec (lines[i] :: lines.drop (i + 1)) true hp
                = lines[i] :: tablesSpec (lines.drop (i + 1)) true hp from by
            simp [tablesSpec, htl, hcnt]]
          rw [take_succ_append hi]
    · rw [show tablesLoop (n + 1) i lines b hp
            = tablesLoop n (i + 1) lines false 0 from by
          simp [tablesLoop, hg, htl]]
      rw [ih lines (i + 1) false 0 (by omega)]
      rw [show tablesSpec (lines[i] :: lines.drop (i + 1)) b hp
            = lines[i] :: tablesSpec (lines.drop (i + 1)) false 0 from by
        simp [tablesSpec, htl]]
      rw [take_succ_append hi]

/-- `fixTables` computes exactly the line-by-line state machine
`tablesSpec` over the buffer's lines. -/
theorem fixTables_eq_spec (s : Str) :
    fixTables s = joinNL (tablesSpec (splitNL s) false 0) := by
  unfold fixTables
  rw [tablesLoop_eq (splitNL s).length (splitNL s) 0 false 0 (by simp)]
  simp

theorem tablesSpec_id_of_noTables :
    ∀ (lines : List Str) (b : Bool) (hp : Nat),
      (∀ l ∈ lines, tableLine l = false) → tablesSpec lines b hp = lines := by
  intro lines
  induction lines with
  | nil => intro b hp _; rfl
  | cons l rest ih =>
    intro b hp hall
    have hl : tableLine l = false := hall l (List.mem_cons_self _ _)
    simp only [tablesSpec, hl]
    simp
    exact ih false 0 fun m hm => hall m (List.mem_cons_of_mem _ hm)

/-- One unfolding step of `tablesSpec` on a cons cell. -/
theorem tablesSpec_cons (l : Str) (rest : List Str) (b : Bool) (hp : Nat) :
    tablesSpec (l :: rest) b hp =
      if tableLine l = true then
        if !b then
          match rest with
          | next :: _ =>
            if tableSep next = true then l :: tablesSpec rest true (countChar '|' l)
            else l :: tablesSpec rest b hp
          | [] => l :: tablesSpec rest b hp
        else
          (if countChar '|' l < hp then trimRightSp l ++ padCells (hp - countChar '|' l)
           else l) :: tablesSpec rest b hp
      else l :: tablesSpec rest false 0 := rfl

/-- One unfolding step of `okTables` on a cons cell. -/
theorem okTables_cons (l : Str) (rest : List Str) (b : Bool) (hp : Nat) :
    okTables (l :: rest) b hp =
      if tableLine l = true then
        if !b then
          match rest with
          | next :: _ =>
            if tableSep next = true then okTables rest true (countChar '|' l)
            else okTables rest b hp
          | [] => okTables rest b hp
        else hp ≤ countChar '|' l && okTables rest b hp
      else okTables rest false 0 := rfl

theorem tablesSpec_id_of_ok :
    ∀ (lines : List Str) (b : Bool) (hp : Nat),
      okTables lines b hp = true → tablesSpec lines b hp = lines := by
  intro lines
  induction lines with
  | nil => intro b hp _; rfl
  | cons l rest ih =>
    intro b hp hok
    rw [okTables_cons] at hok
    rw [tablesSpec_cons]
    by_cases hl : tableLine l = true
    · rw [if_pos hl] at hok ⊢
      cases b with
      | false =>
        rcases rest with _ | ⟨next, rest'⟩
        · simp at hok ⊢
          exact ih _ _ hok
        · by_cases hsep : tableSep next = true
          · simp only [hsep, if_true, Bool.not_false] at hok ⊢
            simp at hok ⊢
            exact ih _ _ hok
          · simp only [hsep] at hok ⊢
            simp at hok ⊢
            exact ih _ _ hok
      | true =>
        simp at hok ⊢
        have hcnt : ¬ countChar '|' l < hp := by omega
        simp [hcnt]
        exact ih _ _ hok.2
    · rw [if_neg hl] at hok ⊢
      simp
      exact ih _ _ hok

/-- Each processed line is the original line or its padded form. -/
theorem tablesSpec_shape (l : Str) (rest : List Str) (b : Bool) (hp : Nat) :
    ∃ l' b' hp', tablesSpec (l :: rest) b hp = l' :: tablesSpec rest b' hp' ∧
      (l' = l ∨ l' = trimRightSp l ++ padCells (hp - countChar '|' l)) := by
  rw [tablesSpec_cons]
  by_cases hl : tableLine l = true
  · cases b with
    | false =>
      rcases rest with _ | ⟨next, rest'⟩
      · exact ⟨l, false, hp, by simp [hl], .inl rfl⟩
      · by_cases hsep : tableSep next = true
        · exact ⟨l, true, countChar '|' l, by simp [hl, hsep], .inl rfl⟩
        · exact ⟨l, false, hp, by simp [hl, hsep], .inl rfl⟩
    | true =>
      by_cases hcnt : countChar '|' l < hp
      · exact ⟨_, true, hp, by simp [hl, hcnt], .inr rfl⟩
      · exact ⟨l, true, hp, by simp [hl, hcnt], .inl rfl⟩
  · exact ⟨l, false, 0, by simp [hl], .inl rfl⟩

theorem tablesSpec_length : ∀ (lines : List Str) (b : Bool) (hp : Nat),
    (tablesSpec lines b hp).length = lines.length := by
  intro lines
  induction lines with
  | nil => intro b hp; rfl
  | cons l rest ih =>
    intro b hp
    obtain ⟨l', b', hp', hs, -⟩ := tablesSpec_shape l rest b hp
    rw [hs]
    simp [ih]

theorem mem_padCells {d : Char} {n : Nat} (h : d ∈ padCells n) : d = ' ' ∨ d = '|' := by
  unfold padCells at h
  rw [List.mem_flatten] at h
  obtain ⟨t, ht, hdt⟩ := h
  rw [List.mem_replicate] at ht
  rw [ht.2] at hdt
  simpa using hdt

theorem countFence_padLine (l : Str) (d : Nat) :
    countFence (trimRightSp l ++ padCells d) = countFence l := by
  obtain ⟨w, hw, hmem⟩ := trimRightSp_decomp l
  rw [countFence_append_other fun c hc => by rcases mem_padCells hc with h | h <;> simp [h]]
  conv_rhs => rw [hw]
  rw [countFence_append_other fun c hc => by rw [hmem c hc]; decide]

theorem countChar_padLine {c : Char} (hc1 : ¬ c = ' ') (hc2 : ¬ c = '|') (l : Str) (d : Nat) :
    countChar c (trimRightSp l ++ padCells d) = countChar c l := by
  have hz : countChar c (padCells d) = 0 := countChar_eq_zero fun e he => by
    rcases mem_padCells he with h | h
    · rw [h]; exact fun hx => hc1 hx.symm
    · rw [h]; exact fun hx => hc2 hx.symm
  rw [countChar_append, hz, Nat.add_zero, countChar_trimRightSp hc1]

theorem emphScan_padLine (st : List Str) (l : Str) (d : Nat) :
    emphScanAux st (trimRightSp l ++ padCells d) = emphScanAux st l := by
  obtain ⟨w, hw, hmem⟩ := trimRightSp_decomp l
  rw [emphScanAux_append_no_tok (fun e he => by
    rcases mem_padCells he with h | h <;> simp [h, tokChar])]
  conv_rhs => rw [hw]
  rw [emphScanAux_append_no_tok (fun e he => by rw [hmem e he]; rfl)]

theorem countFence_joinNL_cons {ls : List Str} (h : ls ≠ []) (l : Str) :
    countFence (joinNL (l :: ls)) = countFence l + countFence (joinNL ls) := by
  rw [joinNL_cons h]
  rw [countFence_append (b := '\n' :: joinNL ls) (fun ds he => by simp at he) l]
  rw [countFence.eq_2 '\n' (joinNL ls) (fun r h1 _ => by exact absurd h1 (by decide))]

theorem countChar_joinNL_cons {c : Char} (hc : ¬ c = '\n') {ls : List Str} (h : ls ≠ [])
    (l : Str) : countChar c (joinNL (l :: ls)) = countChar c l + countChar c (joinNL ls) := by
  have h2 : ¬ '\n' = c := fun hx => hc hx.symm
  rw [joinNL_cons h, countChar_append, countChar, if_neg h2, Nat.zero_add]

theorem emphScanAux_cons_nl (st : List Str) (x : Str) :
    emphScanAux st ('\n' :: x) = emphScanAux st x := by
  have h4 : '\n' = '*' → False := by decide
  have h5 : '\n' = '_' → False := by decide
  have h7 : '\n' = '~' → False := by decide
  rw [emphScanAux.eq_8 st '\n' x (fun r hh _ => h4 hh) (fun r hh _ => h4 hh)
      (fun r hh _ => h5 hh) h4 h5 (fun r hh _ => h7 hh) h7]

theorem emphScanAux_joinNL_cons (st : List Str) {ls : List Str} (h : ls ≠ []) (l : Str) :
    emphScanAux st (joinNL (l :: ls)) = emphScanAux (emphScanAux st l) (joinNL ls) := by
  rw [joinNL_cons h]
  rw [emphScanAux_append (fun c cs he => by
    obtain ⟨h1, -⟩ : c = '\n' ∧ cs = joinNL ls := by simpa using he.symm
    rw [h1]; rfl) st l]
  rw [emphScanAux_cons_nl]

theorem tablesSpec_ne_nil {lines : List Str} (h : lines ≠ []) (b : Bool) (hp : Nat) :
    tablesSpec lines b hp ≠ [] := by
  intro hnil
  have := tablesSpec_length lines b hp
  rw [hnil] at this
  rcases lines with _ | ⟨m, ms⟩
  · exact h rfl
  · simp at this

theorem countFence_tablesSpec : ∀ (lines : List Str) (b : Bool) (hp : Nat),
    countFence (joinNL (tablesSpec lines b hp)) = countFence (joinNL lines) := by
  intro lines
  induction lines with
  | nil => intro b hp; rfl
  | cons l rest ih =>
    intro b hp
    obtain ⟨l', b', hp', hs, hrel⟩ := tablesSpec_shape l rest b hp
    have hline : countFence l' = countFence l := by
      rcases hrel with h | h
      · rw [h]
      · rw [h, countFence_padLine]
    rw [hs]
    rcases rest with _ | ⟨m, ms⟩
    · simpa [tablesSpec, joinNL] using hline
    · rw [countFence_joinNL_cons (tablesSpec_ne_nil (by simp) b' hp'),
        countFence_joinNL_cons (by simp), ih, hline]

theorem countChar_tablesSpec {c : Char} (hc1 : ¬ c = ' ') (hc2 : ¬ c = '|')
    (hc3 : ¬ c = '\n') : ∀ (lines : List Str) (b : Bool) (hp : Nat),
    countChar c (joinNL (tablesSpec lines b hp)) = countChar c (joinNL lines) := by
  intro lines
  induction lines with
  | nil => intro b hp; rfl
  | cons l rest ih =>
    intro b hp
    obtain ⟨l', b', hp', hs, hrel⟩ := tablesSpec_shape l rest b hp
    have hline : countChar c l' = countChar c l := by
      rcases hrel with h | h
      · rw [h]
      · rw [h, countChar_padLine hc1 hc2]
    rw [hs]
    rcases rest with _ | ⟨m, ms⟩
    · simpa [tablesSpec, joinNL] using hline
    · rw [countChar_joinNL_cons hc3 (tablesSpec_ne_nil (by simp) b' hp'),
        countChar_joinNL_cons hc3 (by simp), ih, hline]

theorem emphScan_tablesSpec : ∀ (lines : List Str) (b : Bool) (hp : Nat) (st : List Str),
    emphScanAux st (joinNL (tablesSpec lines b hp)) = emphScanAux st (joinNL lines) := by
  intro lines
  induction lines with
  | nil => intro b hp st; rfl
  | cons l rest ih =>
    intro b hp st
    obtain ⟨l', b', hp', hs, hrel⟩ := tablesSpec_shape l rest b hp
    have hline : emphScanAux st l' = emphScanAux st l := by
      rcases hrel with h | h
      · rw [h]
      · rw [h, emphScan_padLine]
    rw [hs]
    rcases rest with _ | ⟨m, ms⟩
    · simpa [tablesSpec, joinNL] using hline
    · rw [emphScanAux_joinNL_cons st (tablesSpec_ne_nil (by simp) b' hp'),
        emphScanAux_joinNL_cons st (by simp), ih, hline]

/-! ### The first five sub-repairs only append -/

theorem fixCodeBlocks_cases (s : Str) :
    fixCodeBlocks s = s ∨ fixCodeBlocks s = s ++ ['\n', '`', '`', '`'] := by
  unfold fixCodeBlocks
  split
  · exact .inr rfl
  · exact .inl rfl

theorem fixInlineCode_cases (s : Str) :
    fixInlineCode s = s ∨ fixInlineCode s = s ++ ['`'] := by
  unfold fixInlineCode
  split
  · exact .inr rfl
  · exact .inl rfl

theorem fixLinks_append (s : Str) :
    ∃ w, fixLinks s = s ++ w ∧ ∀ c ∈ w, c = ']' ∨ c = ')' := by
  unfold fixLinks
  by_cases h1 : linkTextNeeds s = true
  · by_cases h2 : linkURLNeeds (s ++ [']']) = true
    · exact ⟨[']', ')'], by simp [h1, h2], by intro c hc; simpa using hc⟩
    · exact ⟨[']'], by simp [h1, h2], by intro c hc; exact .inl (by simpa using hc)⟩
  · by_cases h2 : linkURLNeeds s = true
    · exact ⟨[')'], by simp [h1, h2], by intro c hc; exact .inr (by simpa using hc)⟩
    · exact ⟨[], by simp [h1, h2], by intro c hc; simp at hc⟩

theorem fixImages_append (s : Str) :
    ∃ w, fixImages s = s ++ w ∧ ∀ c ∈ w, c = ']' ∨ c = ')' := by
  unfold fixImages imgAltStage
  by_cases h1 : imgAltNeeds s = true
  · by_cases h2 : imgURLNeeds (s ++ [']']) = true
    · exact ⟨[']', ')'], by simp [h1, h2], by intro c hc; simpa using hc⟩
    · exact ⟨[']'], by simp [h1, h2], by intro c hc; exact .inl (by simpa using hc)⟩
  · by_cases h2 : imgURLNeeds s = true
    · exact ⟨[')'], by simp [h1, h2], by intro c hc; exact .inr (by simpa using hc)⟩
    · exact ⟨[], by simp [h1, h2], by intro c hc; simp at hc⟩

theorem fixEmphasis_append (s : Str) :
    ∃ w, fixEmphasis s = s ++ w ∧ ∀ c ∈ w, tokChar c = true := by
  refine ⟨(emphScan s).flatten, appendClosers_eq _ _, ?_⟩
  intro c hc
  rw [List.mem_flatten] at hc
  obtain ⟨t, ht, hct⟩ := hc
  have htok : t ∈ emphTokens := by
    rcases emphScanAux_mem [] s ht with h | h
    · exact h
    · simp at h
  have hall : ∀ t ∈ emphTokens, ∀ c ∈ t, tokChar c = true := by decide
  exact hall t htok c hct

/-! ### Effect of `fixTables` on the global counts and on the scan -/

theorem countFence_fixTables (s : Str) : countFence (fixTables s) = countFence s := by
  rw [fixTables_eq_spec, countFence_tablesSpec]
  rw [joinNL_splitNL]

theorem countChar_tick_fixTables (s : Str) : countChar '`' (fixTables s) = countChar '`' s := by
  rw [fixTables_eq_spec, countChar_tablesSpec (by decide) (by decide) (by decide)]
  rw [joinNL_splitNL]

theorem emphScan_fixTables (s : Str) : emphScan (fixTables s) = emphScan s := by
  unfold emphScan
  rw [fixTables_eq_spec, emphScan_tablesSpec]
  rw [joinNL_splitNL]

theorem emphScan_append_no_tok {w : Str} (hw : ∀ d ∈ w, tokChar d = false) (s : Str) :
    emphScan (s ++ w) = emphScan s :=
  emphScanAux_append_no_tok hw [] s

theorem tokChar_spec {c : Char} (h : tokChar c = true) :
    isReSpace c = false ∧ ¬ c = '|' ∧ ¬ c = '\n' ∧ ¬ c = '`' := by
  have h' : (c = '*' ∨ c = '_') ∨ c = '~' := by simpa [tokChar] using h
  rcases h' with (h' | h') | h' <;> rw [h'] <;> exact ⟨by decide, by decide, by decide, by decide⟩

/-! ### The engine is the identity on balanced input -/

theorem balanced_spec {s : Str} (h : balanced s = true) :
    countFence s % 2 = 0 ∧ countChar '`' s % 2 = 0 ∧ linkTextNeeds s = false ∧
    linkURLNeeds s = false ∧ imgAltNeeds s = false ∧ imgURLNeeds s = false ∧
    emphScan s = [] ∧ okTables (splitNL s) false 0 = true := by
  unfold balanced at h
  simp only [Bool.and_eq_true, Bool.not_eq_true', decide_eq_true_eq] at h
  tauto

theorem fix_noop_of_balanced {s : Str} (h : balanced s = true) :
    fixIncompleteMarkdown s = s := by
  obtain ⟨hf, hb, hlt, hlu, hia, hiu, hes, hok⟩ := balanced_spec h
  have h1 : fixCodeBlocks s = s := by
    unfold fixCodeBlocks
    rw [if_neg (by omega)]
  have h2 : fixInlineCode s = s := by
    unfold fixInlineCode
    rw [if_neg (by omega)]
  have h3 : fixLinks s = s := by
    unfold fixLinks
    simp [hlt, hlu]
  have h4 : fixImages s = s := by
    unfold fixImages imgAltStage
    simp [hia, hiu]
  have h5 : fixEmphasis s = s := by
    unfold fixEmphasis
    rw [hes]
    rfl
  have h6 : fixTables s = s := by
    rw [fixTables_eq_spec, tablesSpec_id_of_ok _ _ _ hok]
    exact joinNL_splitNL s
  unfold fixIncompleteMarkdown
  rw [h1, h2, h3, h4, h5, h6]

/-! ## Claims settled on concrete inputs -/

/-- C9: the nested-bracket image alt-text case is a documented false
negative of the heuristics: the whole repair returns the buffer
`"Text ![alt with [nested] brackets"` unchanged. -/
theorem c9_nested_bracket_unchanged :
    fixIncompleteMarkdown "Text ![alt with [nested] brackets".toList =
      "Text ![alt with [nested] brackets".toList := by decide

/-- C6: `fixEmphasis` appends exactly the markers left on the stack, in
stack order from top to bottom (innermost, last-opened marker first); in
particular the `**` closer precedes the `_` closer on the spec's example. -/
theorem c6_closers_stack_order :
    (∀ s : Str, fixEmphasis s = s ++ (emphScan s).flatten) ∧
    fixIncompleteMarkdown "Some _italic and **bold text".toList =
      "Some _italic and **bold text**_".toList :=
  ⟨fun s => appendClosers_eq (emphScan s) s, by decide⟩

/-- C1 counterexample: the repair engine is not idempotent.  On `"*"` the
first pass yields `"**"` (the lone `*` is "closed" by appending `*`), but
`"**"` re-tokenizes as a single `**` opener, so a second pass yields
`"****"`. -/
theorem c1_counterexample :
    fixIncompleteMarkdown (fixIncompleteMarkdown ['*']) ≠
      fixIncompleteMarkdown ['*'] := by decide

/-- C3 counterexample: the output of the repair engine can contain an odd
number of fences: on `"`x``"` the inline-code stage appends the backtick
that completes a new fence, giving `"`x```"` with exactly one fence. -/
theorem c3_counterexample :
    countFence (fixIncompleteMarkdown "`x``".toList) % 2 ≠ 0 := by decide

/-- C5 counterexample: re-scanning the repaired output can leave a
non-empty stack: the output for `"*"` is `"**"`, which scans as one open
`**` marker. -/
theorem c5_counterexample :
    emphScan (fixIncompleteMarkdown ['*']) ≠ ([] : List Str) := by decide

/-- C7 counterexample: a buffer that contains `![` and ends in an
unterminated `](…` URL segment with trimmed last character not `)` is NOT
extended by `fixImages`: the image URL pattern `!\[[^\]]*\([^)]*$` demands
that no `]` stand between `![` and `(`, so `"![alt](url"` is returned
unchanged (matching the repository's own test; the full pipeline closes
this paren in `fixLinks` instead). -/
theorem c7_counterexample :
    containsStr "![".toList "![alt](url".toList = true ∧
    matchLinkURL "![alt](url".toList = true ∧
    endsParenTrimmed "![alt](url".toList = false ∧
    fixImages "![alt](url".toList = "![alt](url".toList := by
  exact ⟨by decide, by decide, by decide, by decide⟩

/-- C7 amended: the image URL closer fires on the pattern `![` + run of
non-`]` characters + `(` + run of non-`)` characters extending to the end
of the buffer, evaluated on the output of the alt-text stage: when that
pattern matches and the trimmed last character is not `)`, `fixImages`
appends `)`. -/
theorem c7_img_url_closer (s : Str)
    (h1 : matchImgURL (imgAltStage s) = true)
    (h2 : endsParenTrimmed (imgAltStage s) = false) :
    fixImages s = imgAltStage s ++ [')'] := by
  unfold fixImages
  simp [imgURLNeeds, h1, h2]

theorem c7_witness :
    matchImgURL (imgAltStage "![alt(url".toList) = true ∧
    endsParenTrimmed (imgAltStage "![alt(url".toList) = false ∧
    fixImages "![alt(url".toList = imgAltStage "![alt(url".toList ++ [')'] :=
  ⟨by decide, by decide, c7_img_url_closer _ (by decide) (by decide)⟩

/-- C8 counterexample: the separator line is NOT always left unmodified:
under the header `"| a | b |"` (three pipes), the separator `"|---|"` (two
pipes) is processed as a body row on the following iteration and padded to
`"|---| |"`. -/
theorem c8_counterexample :
    tableLine "| a | b |".toList = true ∧
    tableSep "|---|".toList = true ∧
    fixTables "| a | b |\n|---|".toList = "| a | b |\n|---| |".toList := by
  exact ⟨by decide, by decide, by decide⟩


/-! ## Universally quantified claims -/

/-- C2: on a buffer satisfying all the balance invariants — even fence
count, even backtick count, none of the four link/image guards firing,
empty emphasis-tokenizer stack, and every table body row at least at the
header's pipe count — the repair engine returns the buffer unchanged,
byte for byte. -/
theorem c2_noop_on_balanced (s : Str) (h : balanced s = true) :
    fixIncompleteMarkdown s = s :=
  fix_noop_of_balanced h

theorem c2_witness :
    balanced "| a | b |\n|---|---|\n| c | d |".toList = true ∧
    fixIncompleteMarkdown "| a | b |\n|---|---|\n| c | d |".toList =
      "| a | b |\n|---|---|\n| c | d |".toList :=
  ⟨by decide, c2_noop_on_balanced _ (by decide)⟩

/-- C1 amended: the repair engine is idempotent at every buffer whose
repaired output satisfies the balance invariants.  Unrestricted
idempotence fails: `repair "*" = "**"` re-tokenizes as a single `**`
opener, so a second pass appends again. -/
theorem c1_idempotent_on_balanced_output (s : Str)
    (h : balanced (fixIncompleteMarkdown s) = true) :
    fixIncompleteMarkdown (fixIncompleteMarkdown s) = fixIncompleteMarkdown s :=
  fix_noop_of_balanced h

theorem c1_witness :
    balanced (fixIncompleteMarkdown "This is **bold text".toList) = true ∧
    fixIncompleteMarkdown (fixIncompleteMarkdown "This is **bold text".toList) =
      fixIncompleteMarkdown "This is **bold text".toList :=
  ⟨by decide, c1_idempotent_on_balanced_output _ (by decide)⟩

/-- C8 amended: `fixTables` is exactly the line-by-line state machine
`tablesSpec`: a candidate line followed by a separator line is recognized
as a header, its pipe count becoming the expected column count, and is
emitted unchanged at that step — the separator line itself is processed
as a body row on the following step (and is padded if it is short of
pipes); while in a table, a candidate line with fewer pipes than expected
is emitted with trailing spaces trimmed and `" |"` appended the missing
number of times; a non-candidate line is emitted unchanged and resets the
state. -/
theorem c8_tables_line_by_line (s : Str) :
    fixTables s = joinNL (tablesSpec (splitNL s) false 0) :=
  fixTables_eq_spec s

/-- C4: for every buffer, the output of the repair engine contains an even
number of backtick characters. -/
theorem c4_backtick_parity (s : Str) :
    countChar '`' (fixIncompleteMarkdown s) % 2 = 0 := by
  have h1 : countChar '`' (fixInlineCode (fixCodeBlocks s)) % 2 = 0 := by
    unfold fixInlineCode
    by_cases h : countChar '`' (fixCodeBlocks s) % 2 ≠ 0
    · rw [if_pos h, countChar_append]
      simp [countChar]
      omega
    · rw [if_neg h]
      omega
  obtain ⟨w3, e3, p3⟩ := fixLinks_append (fixInlineCode (fixCodeBlocks s))
  obtain ⟨w4, e4, p4⟩ := fixImages_append (fixLinks (fixInlineCode (fixCodeBlocks s)))
  obtain ⟨w5, e5, p5⟩ :=
    fixEmphasis_append (fixImages (fixLinks (fixInlineCode (fixCodeBlocks s))))
  unfold fixIncompleteMarkdown
  rw [countChar_tick_fixTables, e5, e4, e3, countChar_append, countChar_append,
    countChar_append]
  have z3 : countChar '`' w3 = 0 :=
    countChar_eq_zero fun d hd => by rcases p3 d hd with h | h <;> (rw [h]; decide)
  have z4 : countChar '`' w4 = 0 :=
    countChar_eq_zero fun d hd => by rcases p4 d hd with h | h <;> (rw [h]; decide)
  have z5 : countChar '`' w5 = 0 :=
    countChar_eq_zero fun d hd => (tokChar_spec (p5 d hd)).2.2.2
  rw [z3, z4, z5]
  simpa using h1

/-- C3 amended: the buffer coming out of the fence stage always contains
an even number of fences, and the final output does whenever that buffer
also has an even backtick count (so the inline-code stage appends
nothing).  In general the inline-code stage's appended backtick can
complete a new fence (counterexample: the output for "`x``" has exactly
one fence). -/
theorem c3_fence_parity_amended (s : Str) :
    countFence (fixCodeBlocks s) % 2 = 0 ∧
    (countChar '`' (fixCodeBlocks s) % 2 = 0 →
      countFence (fixIncompleteMarkdown s) % 2 = 0) := by
  have hpart1 : countFence (fixCodeBlocks s) % 2 = 0 := by
    unfold fixCodeBlocks
    by_cases h : countFence s % 2 ≠ 0
    · rw [if_pos h, countFence_append (fun ds he => by simp at he)]
      have hone : countFence ['\n', '`', '`', '`'] = 1 := by decide
      omega
    · rw [if_neg h]
      omega
  refine ⟨hpart1, fun hb => ?_⟩
  have h2 : fixInlineCode (fixCodeBlocks s) = fixCodeBlocks s := by
    unfold fixInlineCode
    rw [if_neg (by omega)]
  obtain ⟨w3, e3, p3⟩ := fixLinks_append (fixCodeBlocks s)
  obtain ⟨w4, e4, p4⟩ := fixImages_append (fixLinks (fixCodeBlocks s))
  obtain ⟨w5, e5, p5⟩ := fixEmphasis_append (fixImages (fixLinks (fixCodeBlocks s)))
  unfold fixIncompleteMarkdown
  rw [h2, countFence_fixTables, e5, e4, e3]
  have q3 : ∀ d ∈ w3, ¬ d = '`' := fun d hd => by
    rcases p3 d hd with h | h <;> (rw [h]; decide)
  have q4 : ∀ d ∈ w4, ¬ d = '`' := fun d hd => by
    rcases p4 d hd with h | h <;> (rw [h]; decide)
  have q5 : ∀ d ∈ w5, ¬ d = '`' := fun d hd => (tokChar_spec (p5 d hd)).2.2.2
  rw [countFence_append_other q5, countFence_append_other q4, countFence_append_other q3]
  exact hpart1

theorem c3_witness :
    countChar '`' (fixCodeBlocks "abc".toList) % 2 = 0 ∧
    countFence (fixIncompleteMarkdown "abc".toList) % 2 = 0 :=
  ⟨by decide, (c3_fence_parity_amended "abc".toList).2 (by decide)⟩

/-- C5 amended: for every buffer whose own scan already leaves an empty
stack, re-scanning the repaired output also leaves an empty stack.  For
general buffers the property fails (counterexample "*": the repaired
output "**" scans as one open `**` marker). -/
theorem c5_emphasis_balance_amended (s : Str) (h : emphScan s = ([] : List Str)) :
    emphScan (fixIncompleteMarkdown s) = ([] : List Str) := by
  have h1 : emphScan (fixCodeBlocks s) = [] := by
    rcases fixCodeBlocks_cases s with hc | hc
    · rw [hc]; exact h
    · rw [hc, emphScan_append_no_tok (by decide)]; exact h
  have h2 : emphScan (fixInlineCode (fixCodeBlocks s)) = [] := by
    rcases fixInlineCode_cases (fixCodeBlocks s) with hc | hc
    · rw [hc]; exact h1
    · rw [hc, emphScan_append_no_tok (by decide)]; exact h1
  obtain ⟨w3, e3, p3⟩ := fixLinks_append (fixInlineCode (fixCodeBlocks s))
  have h3 : emphScan (fixLinks (fixInlineCode (fixCodeBlocks s))) = [] := by
    rw [e3, emphScan_append_no_tok
      (fun d hd => by rcases p3 d hd with hh | hh <;> (rw [hh]; decide))]
    exact h2
  obtain ⟨w4, e4, p4⟩ := fixImages_append (fixLinks (fixInlineCode (fixCodeBlocks s)))
  have h4 : emphScan (fixImages (fixLinks (fixInlineCode (fixCodeBlocks s)))) = [] := by
    rw [e4, emphScan_append_no_tok
      (fun d hd => by rcases p4 d hd with hh | hh <;> (rw [hh]; decide))]
    exact h3
  have h5 : fixEmphasis (fixImages (fixLinks (fixInlineCode (fixCodeBlocks s))))
      = fixImages (fixLinks (fixInlineCode (fixCodeBlocks s))) := by
    unfold fixEmphasis
    rw [h4]
    rfl
  unfold fixIncompleteMarkdown
  rw [h5, emphScan_fixTables]
  exact h4

theorem c5_witness :
    emphScan "ok".toList = ([] : List Str) ∧
    emphScan (fixIncompleteMarkdown "ok".toList) = ([] : List Str) :=
  ⟨by decide, c5_emphasis_balance_amended _ (by decide)⟩

/-- C10: each of the first five sub-repairs only ever appends — its input
is a byte-for-byte initial segment of its output — and on any buffer none
of whose lines begins with optional whitespace and a pipe, the original
buffer is an initial segment of the full repair output. -/
theorem c10_stages_only_append (s : Str) :
    (s <+: fixCodeBlocks s ∧ s <+: fixInlineCode s ∧ s <+: fixLinks s ∧
      s <+: fixImages s ∧ s <+: fixEmphasis s) ∧
    ((∀ l ∈ splitNL s, tableLine l = false) → s <+: fixIncompleteMarkdown s) := by
  have pre1 : ∀ u : Str, u <+: fixCodeBlocks u := fun u => by
    rcases fixCodeBlocks_cases u with h | h
    · rw [h]
    · rw [h]; exact ⟨_, rfl⟩
  have pre2 : ∀ u : Str, u <+: fixInlineCode u := fun u => by
    rcases fixInlineCode_cases u with h | h
    · rw [h]
    · rw [h]; exact ⟨_, rfl⟩
  have pre3 : ∀ u : Str, u <+: fixLinks u := fun u => by
    obtain ⟨w, e, -⟩ := fixLinks_append u
    rw [e]; exact ⟨w, rfl⟩
  have pre4 : ∀ u : Str, u <+: fixImages u := fun u => by
    obtain ⟨w, e, -⟩ := fixImages_append u
    rw [e]; exact ⟨w, rfl⟩
  have pre5 : ∀ u : Str, u <+: fixEmphasis u := fun u => by
    obtain ⟨w, e, -⟩ := fixEmphasis_append u
    rw [e]; exact ⟨w, rfl⟩
  refine ⟨⟨pre1 s, pre2 s, pre3 s, pre4 s, pre5 s⟩, fun hno => ?_⟩
  have keyW : ∀ (u w : Str), (∀ l ∈ splitNL u, tableLine l = false) →
      (∀ c ∈ w, isReSpace c = false ∧ ¬ c = '|' ∧ ¬ c = '\n') →
      ∀ l ∈ splitNL (u ++ w), tableLine l = false := by
    intro u w hu hw l hl
    rw [splitNL_append_no_nl (fun hmem => (hw '\n' hmem).2.2 rfl)] at hl
    rcases mem_appendLast (splitNL_ne_nil u) hl with hm | ⟨l0, hl0, rfl⟩
    · exact hu l hm
    · refine tableLine_append_false (hu l0 hl0) ?_
      rcases w with _ | ⟨c, cs⟩
      · exact .inl rfl
      · exact .inr ⟨c, cs, rfl, (hw c (List.mem_cons_self _ _)).1,
          (hw c (List.mem_cons_self _ _)).2.1⟩
  have n1 : ∀ l ∈ splitNL (fixCodeBlocks s), tableLine l = false := by
    rcases fixCodeBlocks_cases s with h | h
    · rw [h]; exact hno
    · rw [h]
      intro l hl
      rw [show (['\n', '`', '`', '`'] : Str) = '\n' :: ['`', '`', '`'] from rfl,
        splitNL_append_nl] at hl
      rcases List.mem_append.mp hl with hm | hm
      · exact hno l hm
      · have hsp : splitNL ['`', '`', '`'] = [['`', '`', '`']] := by decide
        rw [hsp] at hm
        have hl' : l = ['`', '`', '`'] := by simpa using hm
        rw [hl']; decide
  have n2 : ∀ l ∈ splitNL (fixInlineCode (fixCodeBlocks s)), tableLine l = false := by
    rcases fixInlineCode_cases (fixCodeBlocks s) with h | h
    · rw [h]; exact n1
    · rw [h]
      exact keyW _ _ n1 (by decide)
  obtain ⟨w3, e3, p3⟩ := fixLinks_append (fixInlineCode (fixCodeBlocks s))
  have n3 : ∀ l ∈ splitNL (fixLinks (fixInlineCode (fixCodeBlocks s))),
      tableLine l = false := by
    rw [e3]
    exact keyW _ _ n2 (fun c hc => by
      rcases p3 c hc with h | h <;> (rw [h]; exact ⟨by decide, by decide, by decide⟩))
  obtain ⟨w4, e4, p4⟩ := fixImages_append (fixLinks (fixInlineCode (fixCodeBlocks s)))
  have n4 : ∀ l ∈ splitNL (fixImages (fixLinks (fixInlineCode (fixCodeBlocks s)))),
      tableLine l = false := by
    rw [e4]
    exact keyW _ _ n3 (fun c hc => by
      rcases p4 c hc with h | h <;> (rw [h]; exact ⟨by decide, by decide, by decide⟩))
  obtain ⟨w5, e5, p5⟩ :=
    fixEmphasis_append (fixImages (fixLinks (fixInlineCode (fixCodeBlocks s))))
  have n5 : ∀ l ∈ splitNL (fixEmphasis (fixImages (fixLinks
      (fixInlineCode (fixCodeBlocks s))))), tableLine l = false := by
    rw [e5]
    exact keyW _ _ n4 (fun c hc => by
      obtain ⟨q1, q2, q3, -⟩ := tokChar_spec (p5 c hc)
      exact ⟨q1, q2, q3⟩)
  have h6 : fixIncompleteMarkdown s
      = fixEmphasis (fixImages (fixLinks (fixInlineCode (fixCodeBlocks s)))) := by
    unfold fixIncompleteMarkdown
    rw [fixTables_eq_spec, tablesSpec_id_of_noTables _ _ _ n5, joinNL_splitNL]
  rw [h6]
  exact ((((pre1 s).trans (pre2 _)).trans (pre3 _)).trans (pre4 _)).trans (pre5 _)

theorem c10_witness :
    (∀ l ∈ splitNL "abc\ndef".toList, tableLine l = false) ∧
    "abc\ndef".toList <+: fixIncompleteMarkdown "abc\ndef".toList :=
  ⟨by decide, (c10_stages_only_append "abc\ndef".toList).2 (by decide)⟩

end AskDocs
